import Mathlib

/-!
Verification of the rtbkit bid-request synthesizer contract and of the
JSON REST proxy (`src/service/http_rest_proxy.cc`).

The repository ships the test harness of the synthesizer
(`src/common/testing/bid_request_synth_test.cc`) but not
`bid_request_synth.{h,cc}` itself, so the Value Model (record / generate /
dump / load) is modelled from the specification; everything about the test
comparison function `check` of the harness and about `JsonRestProxy` is embedded
directly from the source files.

JSON documents are modelled by a mutually inductive family `J` / `JL` / `JF`
(value, array-element list, object-field list), mirroring `Json::Value` of
jsoncpp: null, bool, signed integer, unsigned integer, real, string, array,
object.  Reals never participate in arithmetic here, so they are carried as
exact rationals.
-/

mutual

/-- A JSON value (the shape of jsoncpp `Json::Value`). -/
inductive J where
  | null
  | b (x : Bool)
  | i (x : Int)
  | u (x : Nat)
  | r (x : Rat)
  | s (x : String)
  | a (xs : JL)
  | o (fs : JF)
  deriving DecidableEq

/-- A list of JSON array elements. -/
inductive JL where
  | nil
  | cons (hd : J) (tl : JL)
  deriving DecidableEq

/-- A list of JSON object fields (key, value). -/
inductive JF where
  | nil
  | cons (k : String) (v : J) (tl : JF)
  deriving DecidableEq

end

/-- Number of elements of a JSON array (`Json::Value::size()`). -/
def lenL : JL → Nat
  | .nil => 0
  | .cons _ t => lenL t + 1

/-- Element membership in a JSON array, by exact (`Json::Value`) equality;
this is what membership in a C++ `std::set<Json::Value>` tests. -/
def memL (v : J) : JL → Bool
  | .nil => false
  | .cons h t => if v = h then true else memL v t

/-- Number of occurrences of an element in a JSON array (its multiset
multiplicity). -/
def countL (v : J) : JL → Nat
  | .nil => 0
  | .cons h t => (if v = h then 1 else 0) + countL v t

/-- Index lookup in a JSON array. -/
def getL : JL → Nat → Option J
  | .nil, _ => none
  | .cons h _, 0 => some h
  | .cons _ t, n + 1 => getL t n

/-- Every element of the first array occurs in the second: one direction of
the `std::set_difference` emptiness test in `check`. -/
def subsetL : JL → JL → Bool
  | .nil, _ => true
  | .cons h t, ys => memL h ys && subsetL t ys

/-- Field lookup by name (`Json::Value::operator[]` on objects /
`isMember`): the first binding of the key, if any. -/
def lookupJF : JF → String → Option J
  | .nil, _ => none
  | .cons k v t, key => if key = k then some v else lookupJF t key

/-- Whether a key occurs among the field names of an object. -/
def keyMemJF (key : String) : JF → Bool
  | .nil => false
  | .cons k _ t => if key = k then true else keyMemJF key t

/-- Field names are pairwise distinct (`Json::Value` objects are maps, so
real documents always satisfy this). -/
def keyNodupJF : JF → Bool
  | .nil => true
  | .cons k _ t => !keyMemJF k t && keyNodupJF t

mutual

/-- Well-formedness of a document: every object that occurs in it has
pairwise-distinct field names, as is forced for jsoncpp values (objects are
`std::map`s keyed by name). -/
def jwf : J → Bool
  | .null => true
  | .b _ => true
  | .i _ => true
  | .u _ => true
  | .r _ => true
  | .s _ => true
  | .a xs => jwfL xs
  | .o fs => jwfF fs

/-- All elements of an array are well-formed. -/
def jwfL : JL → Bool
  | .nil => true
  | .cons h t => jwf h && jwfL t

/-- Field names are distinct and all field values are well-formed. -/
def jwfF : JF → Bool
  | .nil => true
  | .cons k v t => !keyMemJF k t && jwf v && jwfF t

end

/-! ## The comparison function `check` of the test harness
(`bid_request_synth_test.cc`, lines 36-88).  `check(src, dst)` reports a
list of errors via `checkErr`; `checkOk src dst = true` models "no error
reported".  Types must match; objects are compared by member lookup in both
directions with recursion on the members; arrays are compared by `size()`
and then by equality of the two `std::set<Json::Value>`s built from their
elements (`set_difference` empty in both directions); everything else by
`Json::Value` equality. -/

/-- The second loop of `check` on objects: every `dst` member name occurs in
`src` (no recursion into the values, as in the source). -/
def checkFieldsDst : JF → JF → Bool
  | .nil, _ => true
  | .cons k _ t, fs => (lookupJF fs k).isSome && checkFieldsDst t fs

mutual

/-- The `check` of the test harness (no `checkErr` fired): type equality, then
per-kind comparison exactly as in the source. -/
def checkOk : J → J → Bool
  | .o fs, .o gs => checkFieldsSrc fs gs && checkFieldsDst gs fs
  | .a xs, .a ys => (lenL xs = lenL ys) && (subsetL xs ys && subsetL ys xs)
  | sv, dv => sv = dv

/-- The first loop of `check` on objects: every `src` member must be a
member of `dst`, and the two values must themselves pass `check`. -/
def checkFieldsSrc : JF → JF → Bool
  | .nil, _ => true
  | .cons k v t, gs =>
      (match lookupJF gs k with
       | some w => checkOk v w
       | none => false) && checkFieldsSrc t gs

end

/-! ## The Value Model

Modelled from the spec: `bid_request_synth.{h,cc}` is not part of the
source tree (only its test harness is), so the node tree, the merge
algorithm of section 4.1, the generator of section 4.2 and the codec of
section 4.3 are embedded from the specification text. -/

/-- A scalar leaf payload: one concrete value together with its runtime
type tag (boolean, signed integer, unsigned integer, floating point,
text), plus null. -/
inductive Scalar where
  | null
  | b (x : Bool)
  | i (x : Int)
  | u (x : Nat)
  | r (x : Rat)
  | s (x : String)
  deriving DecidableEq

/-- Emit a stored scalar back as a JSON value (same type tag, same value). -/
def Scalar.toJ : Scalar → J
  | .null => .null
  | .b x => .b x
  | .i x => .i x
  | .u x => .u x
  | .r x => .r x
  | .s x => .s x

mutual

/-- Modelled from the spec: a Value Model node, a tagged variant over
leaf / object / array.  An array node holds at most one child, the merged
shape of every element ever recorded at that position; `arr0` is an array
position whose element shape has not been created yet (only empty arrays
were recorded there). -/
inductive Node where
  | leaf (v : Scalar)
  | obj (fs : NF)
  | arr0
  | arr1 (c : Node)
  deriving DecidableEq

/-- Fields of an object node: name-keyed children, names unique. -/
inductive NF where
  | nil
  | cons (k : String) (v : Node) (tl : NF)
  deriving DecidableEq

end

/-- Child lookup by field name in an object node. -/
def lookupNF : NF → String → Option Node
  | .nil, _ => none
  | .cons k v t, key => if key = k then some v else lookupNF t key

/-- Whether a field name is already part of the schema of an object node. -/
def keyMemNF (key : String) : NF → Bool
  | .nil => false
  | .cons k _ t => if key = k then true else keyMemNF key t

/-- Replace the child stored under a name, or append the binding if the
name is new (fields are never removed, and a known name keeps its slot). -/
def upsertNF : NF → String → Node → NF
  | .nil, key, n => .cons key n .nil
  | .cons k v t, key, n => if key = k then .cons k n t else .cons k v (upsertNF t key n)

mutual

/-- Well-formedness of a model node: distinct field names at every object
node. -/
def nwf : Node → Bool
  | .leaf _ => true
  | .obj fs => nwfFs fs
  | .arr0 => true
  | .arr1 c => nwf c

/-- Well-formedness of the field list of an object node. -/
def nwfFs : NF → Bool
  | .nil => true
  | .cons k v t => !keyMemNF k t && nwf v && nwfFs t

end

/-- The existing fields an incoming object merges into: those of the node
already at this position when it is an object node, nothing otherwise
(a kind conflict replaces the node wholesale, spec section 4.1). -/
def startFields : Option Node → NF
  | some (.obj fs) => fs
  | _ => .nil

/-- The existing element shape an incoming array merges into: the child of
the node already at this position when it is an array node with a child,
nothing otherwise. -/
def startElem : Option Node → Option Node
  | some (.arr1 c) => some c
  | _ => none

/-- Package an optional element shape as an array node. -/
def arrOf : Option Node → Node
  | none => .arr0
  | some c => .arr1 c

mutual

/-- Modelled from the spec, section 4.1: merge an incoming document value
into the node at a position (or into no node, on first sight).  A scalar
stores its (type, value) pair, replacing any prior one; an object merges
each incoming field into the child of that name; an array merges every
element, one at a time, into the single shared element shape.  On a kind
conflict the incoming kind replaces the node wholesale. -/
def mergeVal : Option Node → J → Node
  | _, .null => .leaf .null
  | _, .b x => .leaf (.b x)
  | _, .i x => .leaf (.i x)
  | _, .u x => .leaf (.u x)
  | _, .r x => .leaf (.r x)
  | _, .s x => .leaf (.s x)
  | n, .a xs => arrOf (mergeElems (startElem n) xs)
  | n, .o fs => .obj (mergeFields (startFields n) fs)

/-- Merge each element of an incoming array into the single shared
single shared element shape, in order (the collapsing step). -/
def mergeElems : Option Node → JL → Option Node
  | c, .nil => c
  | c, .cons x xs => mergeElems (some (mergeVal c x)) xs

/-- Merge each incoming object field into the child of that name, creating
the child on first sight; fields not mentioned by the incoming object are
left untouched. -/
def mergeFields : NF → JF → NF
  | cur, .nil => cur
  | cur, .cons k v rest => mergeFields (upsertNF cur k (mergeVal (lookupNF cur k) v)) rest

end

/-- Modelled from the spec: `record(document)` folds one document into the
model, creating the root on first sight.  The model is `none` before the
first record. -/
def record (m : Option Node) (doc : J) : Option Node :=
  some (mergeVal m doc)

mutual

/-- Modelled from the spec, section 4.2: generate one synthetic document
from a node.  A leaf emits its stored (type, value); an object emits every
known field, in the order the schema holds them; an array emits exactly one
element, the generation of its single shared child (an array position with
no recorded element shape emits an empty array). -/
def genNode : Node → J
  | .leaf v => v.toJ
  | .obj fs => .o (genFields fs)
  | .arr0 => .a .nil
  | .arr1 c => .a (.cons (genNode c) .nil)

/-- Generate every field of an object node. -/
def genFields : NF → JF
  | .nil => .nil
  | .cons k v t => .cons k (genNode v) (genFields t)

end

/-- Modelled from the spec: `generate()` on the whole model; an empty model
(nothing recorded) generates the explicit empty-document sentinel, null. -/
def generateModel : Option Node → J
  | none => .null
  | some n => genNode n

/-! ## The Codec (spec section 4.3)

Modelled from the spec: the serialized form is a self-describing
JSON-compatible document that tags each node kind, keeps every leaf type
tag exact (no floating-point intermediate), the full field set of every
object node, and the single shared child of every array node.  A node
serializes as a one-field object whose key names the kind. -/

mutual

/-- Serialize a node: leaf as its tagged scalar under key "leaf", an object
object fields under key "obj", the single array element shape under
key "arr" (null when no element shape was ever created). -/
def encodeNode : Node → J
  | .leaf v => .o (.cons "leaf" v.toJ .nil)
  | .obj fs => .o (.cons "obj" (.o (encodeFields fs)) .nil)
  | .arr0 => .o (.cons "arr" .null .nil)
  | .arr1 c => .o (.cons "arr" (encodeNode c) .nil)

/-- Serialize every field of an object node. -/
def encodeFields : NF → JF
  | .nil => .nil
  | .cons k v t => .cons k (encodeNode v) (encodeFields t)

end

/-- Read a serialized scalar back with its type tag. -/
def toScalar : J → Option Scalar
  | .null => some .null
  | .b x => some (.b x)
  | .i x => some (.i x)
  | .u x => some (.u x)
  | .r x => some (.r x)
  | .s x => some (.s x)
  | _ => none

mutual

/-- Decode a serialized node; `none` on any input the codec never
produces (corrupt or truncated serialized model). -/
def decodeNode : J → Option Node
  | .o (.cons k v .nil) =>
      if k = "leaf" then (toScalar v).map Node.leaf
      else if k = "obj" then
        match v with
        | .o gs => (decodeFields gs).map Node.obj
        | _ => none
      else if k = "arr" then
        match v with
        | .null => some .arr0
        | w => (decodeNode w).map Node.arr1
      else none
  | _ => none

/-- Decode a serialized field list; fails if any child fails. -/
def decodeFields : JF → Option NF
  | .nil => some .nil
  | .cons k v t =>
      match decodeNode v, decodeFields t with
      | some n, some rest => some (.cons k n rest)
      | _, _ => none

end

/-- Modelled from the spec: `dump` serializes the whole model (an empty
model dumps as null). -/
def dumpModel : Option Node → J
  | none => .null
  | some n => encodeNode n

/-- Modelled from the spec: `load` parses a serialized model, reporting a
decode error on anything the codec cannot reconstruct. -/
def loadModel : J → Except String (Option Node)
  | .null => .ok none
  | j =>
      match decodeNode j with
      | some n => .ok (some n)
      | none => .error "cannot decode serialized model"

/-- Modelled from the spec: `load` run against a current model, returning
the model afterwards and whether a decode error was reported.  On a decode
error the model is left unchanged (load fully succeeds or has no effect). -/
def loadState (m : Option Node) (src : J) : Option Node × Bool :=
  match loadModel src with
  | .ok m2 => (m2, false)
  | .error _ => (m, true)

/-! ## Positions

A field path (object-field steps only) and a full position path
(object-field and array-index steps), as in the glossary of the spec. -/

/-- One step of a position: descend into a named object field or into an
array element by index. -/
inductive Step where
  | fld (k : String)
  | idx (i : Nat)
  deriving DecidableEq

/-- Follow a position path inside a document. -/
def lookupStep : J → List Step → Option J
  | j, [] => some j
  | j, step :: p =>
      match j, step with
      | .o fs, .fld k =>
          (match lookupJF fs k with
           | some v => lookupStep v p
           | none => none)
      | .a xs, .idx i =>
          (match getL xs i with
           | some v => lookupStep v p
           | none => none)
      | _, _ => none

/-- Follow a field path (object-field steps only) inside a document. -/
def lookupFieldPath : J → List String → Option J
  | j, [] => some j
  | j, k :: p =>
      match j with
      | .o fs =>
          (match lookupJF fs k with
           | some v => lookupFieldPath v p
           | none => none)
      | _ => none

/-- Follow a field path inside a model node. -/
def nodeAtPath : Node → List String → Option Node
  | n, [] => some n
  | n, k :: p =>
      match n with
      | .obj fs =>
          (match lookupNF fs k with
           | some c => nodeAtPath c p
           | none => none)
      | _ => none

/-! ## Order-insensitive structural equality (spec section 8)

Modelled from the spec: two documents are structurally equal when they
agree everywhere except possibly in the order in which distinct object
fields are listed.  `JFEquiv` is the usual permutation-up-to-relation
closure (nil, congruent cons, swap of two distinct names, transitivity). -/

mutual

/-- Order-insensitive structural equality of documents. -/
inductive JEquiv : J → J → Prop
  | null : JEquiv .null .null
  | b (x : Bool) : JEquiv (.b x) (.b x)
  | i (x : Int) : JEquiv (.i x) (.i x)
  | u (x : Nat) : JEquiv (.u x) (.u x)
  | r (x : Rat) : JEquiv (.r x) (.r x)
  | s (x : String) : JEquiv (.s x) (.s x)
  | a : JLEquiv xs ys → JEquiv (.a xs) (.a ys)
  | o : JFEquiv fs gs → JEquiv (.o fs) (.o gs)

/-- Arrays are compared element by element. -/
inductive JLEquiv : JL → JL → Prop
  | nil : JLEquiv .nil .nil
  | cons : JEquiv x y → JLEquiv t u → JLEquiv (.cons x t) (.cons y u)

/-- Object field lists are compared up to order of distinct names. -/
inductive JFEquiv : JF → JF → Prop
  | nil : JFEquiv .nil .nil
  | cons (k : String) : JEquiv v w → JFEquiv t u → JFEquiv (.cons k v t) (.cons k w u)
  | swap (h : k ≠ k2) : JFEquiv (.cons k v (.cons k2 w t)) (.cons k2 w (.cons k v t))
  | trans : JFEquiv f g → JFEquiv g h → JFEquiv f h

end

mutual

/-- Two model states that differ only in the order in which distinct
object fields were inserted. -/
inductive NodeEquiv : Node → Node → Prop
  | leaf (v : Scalar) : NodeEquiv (.leaf v) (.leaf v)
  | arr0 : NodeEquiv .arr0 .arr0
  | arr1 : NodeEquiv c d → NodeEquiv (.arr1 c) (.arr1 d)
  | obj : NFEquiv fs gs → NodeEquiv (.obj fs) (.obj gs)

/-- Field lists of two object nodes, up to order of distinct names. -/
inductive NFEquiv : NF → NF → Prop
  | nil : NFEquiv .nil .nil
  | cons (k : String) : NodeEquiv v w → NFEquiv t u → NFEquiv (.cons k v t) (.cons k w u)
  | swap (h : k ≠ k2) : NFEquiv (.cons k v (.cons k2 w t)) (.cons k2 w (.cons k v t))
  | trans : NFEquiv f g → NFEquiv g h → NFEquiv f h

end

/-! ## The JSON REST proxy (`src/service/http_rest_proxy.cc`)

`JsonRestProxy` extends `HttpRestProxy` with cookie bearer-token
authentication and a retry loop.  The state below carries the fields the
claims are about; `maxRetries` is set to 10 by the constructor and
`authToken` starts empty (it is only filled in by `authenticate`). -/

/-- The proxy state relevant to the claims: the service URI, the
SSL-checks flag, the stored authentication token, and the retry bound. -/
structure JsonRestProxyState where
  serviceUri : String
  noSSLChecks : Bool
  authToken : String
  maxRetries : Nat
  deriving DecidableEq

/-- Whether `pre` is a prefix of `s`, over the character sequences; this is
exactly the condition the C++ `url.find(pre) == 0` tests. -/
def urlBeginsWith (s pre : String) : Bool :=
  pre.data.isPrefixOf s.data

/-- The `JsonRestProxy` constructor (lines 253-261): store the url, set
`maxRetries` to 10, and set `noSSLChecks` when the url begins with
"https://" (the source tests `url.find("https://") == 0`, which holds
exactly when "https://" is a prefix of `url`); the flag starts out unset,
per the base class. -/
def mkJsonRestProxy (url : String) : JsonRestProxyState :=
  { serviceUri := url
  , noSSLChecks := urlBeginsWith url "https://"
  , authToken := ""
  , maxRetries := 10 }

/-- The pair of libcurl verification options (`SslVerifyHost`,
`SslVerifyPeer`) in effect for a connection. -/
structure SSLOpts where
  verifyHost : Bool
  verifyPeer : Bool
  deriving DecidableEq

/-- `HttpRestProxy::perform` (lines 88-91): when `noSSLChecks` is set it
sets both `SslVerifyHost` and `SslVerifyPeer` to false; otherwise it leaves
them at the libcurl defaults, which verify. -/
def performSSLOpts (noSSLChecks : Bool) : SSLOpts :=
  if noSSLChecks then ⟨false, false⟩ else ⟨true, true⟩

/-- The authentication headers built by `JsonRestProxy::putOrPost`
(lines 279-281) and `JsonRestProxy::get` (lines 328-330): a single Cookie
header holding the bearer token when `authToken` is non-empty, nothing
otherwise. -/
def authHeaders (authToken : String) : List (String × String) :=
  if authToken.length > 0 then [("Cookie", "token=\"" ++ authToken ++ "\"")] else []

/-- The headers `putOrPost` attaches to every attempt of its request. -/
def putOrPostHeaders (st : JsonRestProxyState) : List (String × String) :=
  authHeaders st.authToken

/-- The headers `get` passes to `HttpRestProxy::get`. -/
def getHeaders (st : JsonRestProxyState) : List (String × String) :=
  authHeaders st.authToken

/-- How one run of the `putOrPost` loop ends: a response handed back to the
caller, or one of the two `ML::Exception` throws. -/
inductive PpOutcome where
  | ok (code : Nat)
  | unrecoverable
  | tooManyRetries
  deriving DecidableEq

/-- What one run of `putOrPost` did: its outcome, how many times `perform`
ran, and the backoff slot bound of every sleep, in order. -/
structure PpResult where
  outcome : PpOutcome
  attempts : Nat
  sleeps : List Nat
  deriving DecidableEq

/-- `JsonRestProxy::sleepAfterRetry` (lines 355-367) sleeps a uniformly
random time in [0, maxSlot * 0.2s] where maxSlot = (1 << retryNbr) - 1;
the deterministic exponential bound is what we record per sleep. -/
def backoffSlot (retryNbr : Nat) : Nat :=
  2 ^ retryNbr - 1

/-- The retry loop of `JsonRestProxy::putOrPost` (lines 284-321), one
response code per attempt supplied by `codes`.  Mirrors the source: while
`retries < maxRetries`, perform; a code below 400 breaks out returning that
response; otherwise a code below 500 throws "error is unrecoverable"; a
recoverable code sleeps with exponential backoff and retries when
`retries < maxRetries` (the guard repeated from the loop condition) and
throws "too many retries" otherwise; when the loop condition fails the
current `response` is returned (`resp` starts as the default-constructed
response, code 0). -/
def putOrPostLoop (codes : Nat → Nat) (maxRetries retries resp : Nat) (sleeps : List Nat) :
    PpResult :=
  if _h : retries < maxRetries then
    let code := codes retries
    if code < 400 then ⟨.ok code, retries + 1, sleeps⟩
    else if code < 500 then ⟨.unrecoverable, retries + 1, sleeps⟩
    else if retries < maxRetries then
      putOrPostLoop codes maxRetries (retries + 1) code (sleeps ++ [backoffSlot retries])
    else ⟨.tooManyRetries, retries + 1, sleeps⟩
  else ⟨.ok resp, retries, sleeps⟩
  termination_by maxRetries - retries
  decreasing_by omega

/-- `JsonRestProxy::putOrPost` as observed through its response codes. -/
def putOrPost (codes : Nat → Nat) (maxRetries : Nat) : PpResult :=
  putOrPostLoop codes maxRetries 0 0 []

/-- The response code the loop variable `response` holds when attempt
number `i` is about to run: 0 (default-constructed) before the first
attempt, the code of the previous attempt afterwards. -/
def prevResp (codes : Nat → Nat) : Nat → Nat
  | 0 => 0
  | j + 1 => codes j

/-- Whether a JSON value is a scalar (neither an array nor an object). -/
def isScalarJ : J → Bool
  | .a _ => false
  | .o _ => false
  | _ => true

/-- Every field of the object is a scalar. -/
def allScalarJF : JF → Bool
  | .nil => true
  | .cons _ v t => isScalarJ v && allScalarJF t

/-- Concatenation of two field lists of an object node. -/
def appendNF : NF → NF → NF
  | .nil, g => g
  | .cons k v t, g => .cons k v (appendNF t g)

/-- The field list obtained by merging each document field into a fresh
child (what `mergeFields` builds when no field name was known before). -/
def mergeNoneFields : JF → NF
  | .nil => .nil
  | .cons k v t => .cons k (mergeVal none v) (mergeNoneFields t)

/-- Well-formedness of the whole model (the empty model is well-formed). -/
def nwfModel : Option Node → Bool
  | none => true
  | some n => nwf n

/-! ## Lemmas about the array comparison of the harness -/

/-- `subsetL` tests exactly containment of the element sets. -/
theorem subsetL_iff : ∀ xs ys : JL,
    subsetL xs ys = true ↔ ∀ v : J, memL v xs = true → memL v ys = true
  | .nil, ys => by simp [subsetL, memL]
  | .cons h t, ys => by
      simp only [subsetL, Bool.and_eq_true, subsetL_iff t ys]
      constructor
      · rintro ⟨hh, ht⟩ v hv
        rw [memL] at hv
        by_cases hveq : v = h
        · subst hveq; exact hh
        · exact ht v (by simpa [hveq] using hv)
      · intro hall
        refine ⟨hall h (by simp [memL]), fun v hv => hall v ?_⟩
        rw [memL]
        by_cases hveq : v = h <;> simp [hveq, hv]

/-- Membership in the head of a cons. -/
theorem memL_cons_self (h : J) (t : JL) : memL h (.cons h t) = true := by
  simp [memL]

/-- C1 (amended): the `check` of the harness reports two JSON arrays equal
exactly when they have the same number of elements and the same set of
distinct elements; duplicate multiplicities are not compared beyond the
total count, because both sides are collapsed into a `std::set` before the
two `set_difference` tests. -/
theorem check_array_set_semantics : ∀ xs ys : JL,
    checkOk (.a xs) (.a ys) = true ↔
      (lenL xs = lenL ys ∧ ∀ v : J, memL v xs = memL v ys) := by
  intro xs ys
  simp only [checkOk, Bool.and_eq_true, decide_eq_true_eq, subsetL_iff]
  constructor
  · rintro ⟨hlen, hsub1, hsub2⟩
    refine ⟨hlen, fun v => ?_⟩
    cases hx : memL v xs <;> cases hy : memL v ys
    · rfl
    · exact absurd (hsub2 v hy) (by simp [hx])
    · exact absurd (hsub1 v hx) (by simp [hy])
    · rfl
  · rintro ⟨hlen, heq⟩
    exact ⟨hlen, fun v hv => (heq v) ▸ hv, fun v hv => (heq v).symm ▸ hv⟩

/-- C1 counterexample: `check` reports the arrays [1, 1, 2] and [1, 2, 2]
equal (no error fires), although as multisets they differ: the element 1
occurs twice in the first and once in the second.  So `check` does not
compare arrays as multisets. -/
theorem check_array_multiset_counterexample :
    checkOk (.a (.cons (.i 1) (.cons (.i 1) (.cons (.i 2) .nil))))
        (.a (.cons (.i 1) (.cons (.i 2) (.cons (.i 2) .nil)))) = true
    ∧ countL (.i 1) (.cons (.i 1) (.cons (.i 1) (.cons (.i 2) .nil))) = 2
    ∧ countL (.i 1) (.cons (.i 1) (.cons (.i 2) (.cons (.i 2) .nil))) = 1 := by
  decide

/-! ## Lemmas about the putOrPost retry loop -/

/-- Running the loop from the start is the same as starting at attempt `i`
when every attempt before `i` came back with a server error (code 500 or
above): each such attempt sleeps with the exponential backoff slot bound
`2 ^ j - 1` and retries. -/
theorem putOrPostLoop_skip (codes : Nat → Nat) (mr : Nat) :
    ∀ i, i ≤ mr → (∀ j, j < i → 500 ≤ codes j) →
      putOrPost codes mr
        = putOrPostLoop codes mr i (prevResp codes i) ((List.range i).map backoffSlot)
  | 0, _, _ => by simp [putOrPost, prevResp]
  | i + 1, hle, hcodes => by
      have hIH := putOrPostLoop_skip codes mr i (Nat.le_of_succ_le hle)
        (fun j hj => hcodes j (Nat.lt_succ_of_lt hj))
      have hi : i < mr := hle
      have h400 : ¬ (codes i < 400) := by
        have := hcodes i (Nat.lt_succ_self i); omega
      have h500 : ¬ (codes i < 500) := by
        have := hcodes i (Nat.lt_succ_self i); omega
      rw [hIH, putOrPostLoop]
      rw [dif_pos hi]
      simp only []
      rw [if_neg h400, if_neg h500, if_pos hi]
      simp [List.range_succ, prevResp]

/-- The loop performs at most `maxRetries` requests. -/
theorem putOrPostLoop_attempts_le :
    ∀ (n : Nat) (codes : Nat → Nat) (mr retries resp : Nat) (sleeps : List Nat),
      mr - retries = n → retries ≤ mr →
      (putOrPostLoop codes mr retries resp sleeps).attempts ≤ mr
  | 0, codes, mr, retries, resp, sleeps => by
      intro hn hle
      have : ¬ (retries < mr) := by omega
      rw [putOrPostLoop, dif_neg this]
      simp only []
      omega
  | n + 1, codes, mr, retries, resp, sleeps => by
      intro hn hle
      have hlt : retries < mr := by omega
      rw [putOrPostLoop, dif_pos hlt]
      simp only []
      by_cases c4 : codes retries < 400
      · rw [if_pos c4]; simpa using hlt
      · rw [if_neg c4]
        by_cases c5 : codes retries < 500
        · rw [if_pos c5]; simpa using hlt
        · rw [if_neg c5, if_pos hlt]
          exact putOrPostLoop_attempts_le n codes mr (retries + 1) (codes retries)
            (sleeps ++ [backoffSlot retries]) (by omega) (by omega)

/-- The "too many retries" throw can never run: the guard in the loop body
repeats the loop condition, which already held on entry. -/
theorem putOrPostLoop_no_tooMany :
    ∀ (n : Nat) (codes : Nat → Nat) (mr retries resp : Nat) (sleeps : List Nat),
      mr - retries = n →
      (putOrPostLoop codes mr retries resp sleeps).outcome ≠ .tooManyRetries
  | 0, codes, mr, retries, resp, sleeps => by
      intro hn
      have : ¬ (retries < mr) := by omega
      rw [putOrPostLoop, dif_neg this]
      simp
  | n + 1, codes, mr, retries, resp, sleeps => by
      intro hn
      have hlt : retries < mr := by omega
      rw [putOrPostLoop, dif_pos hlt]
      simp only []
      by_cases c4 : codes retries < 400
      · rw [if_pos c4]; simp
      · rw [if_neg c4]
        by_cases c5 : codes retries < 500
        · rw [if_pos c5]; simp
        · rw [if_neg c5, if_pos hlt]
          exact putOrPostLoop_no_tooMany n codes mr (retries + 1) (codes retries)
            (sleeps ++ [backoffSlot retries]) (by omega)

/-- When every one of the `maxRetries` attempts comes back with a server
error, the loop runs out and hands the last failing response back to the
caller (it does not throw); every attempt was followed by a backoff sleep. -/
theorem putOrPost_all_server_errors (codes : Nat → Nat) (mr : Nat)
    (hmr : 0 < mr) (hall : ∀ i, i < mr → 500 ≤ codes i) :
    putOrPost codes mr = ⟨.ok (codes (mr - 1)), mr, (List.range mr).map backoffSlot⟩ := by
  have hskip := putOrPostLoop_skip codes mr mr (Nat.le_refl mr) (fun j hj => hall j hj)
  rw [hskip, putOrPostLoop, dif_neg (by omega)]
  obtain ⟨m, rfl⟩ : ∃ m, mr = m + 1 := ⟨mr - 1, by omega⟩
  simp [prevResp]

/-- C6: `JsonRestProxy::putOrPost` retries only on server errors.  If every
attempt before attempt `i` returned a code of 500 or above (each one slept
first, with exponential backoff slot bound `2 ^ j - 1` recorded in order),
then: a response code below 400 at attempt `i` ends the loop and that
response is returned; a code in [400, 500) raises the unrecoverable-error
exception with no further attempt; and in every case at most `maxRetries`
requests are performed. -/
theorem putOrPost_retry_policy (codes : Nat → Nat) (mr i : Nat)
    (hi : i < mr) (hprior : ∀ j, j < i → 500 ≤ codes j) :
    (codes i < 400 →
      putOrPost codes mr = ⟨.ok (codes i), i + 1, (List.range i).map backoffSlot⟩)
    ∧ (400 ≤ codes i → codes i < 500 →
      putOrPost codes mr = ⟨.unrecoverable, i + 1, (List.range i).map backoffSlot⟩)
    ∧ (putOrPost codes mr).attempts ≤ mr := by
  have hskip := putOrPostLoop_skip codes mr i (Nat.le_of_lt hi) hprior
  refine ⟨?_, ?_, ?_⟩
  · intro c4
    rw [hskip, putOrPostLoop, dif_pos hi]
    simp only []
    rw [if_pos c4]
  · intro c4 c5
    rw [hskip, putOrPostLoop, dif_pos hi]
    simp only []
    rw [if_neg (by omega : ¬ (codes i < 400)), if_pos c5]
  · exact putOrPostLoop_attempts_le (mr - 0) codes mr 0 0 [] rfl (by omega)

/-- C6 witness: one server error (503) then a success (204): the loop
sleeps once (slot bound 2 ^ 0 - 1) and returns the 204 response after two
attempts. -/
theorem putOrPost_retry_policy_witness :
    putOrPost (fun n => if n = 0 then 503 else 204) 10
      = ⟨.ok 204, 1 + 1, (List.range 1).map backoffSlot⟩ :=
  (putOrPost_retry_policy (fun n => if n = 0 then 503 else 204) 10 1
    (by decide) (by decide)).1 (by decide)

/-- C9: the "too many retries" branch of `putOrPost` is dead code — the
guard it sits under repeats the loop condition — and when all `maxRetries`
attempts return server errors the last failing response is returned
normally instead of an exception being thrown. -/
theorem putOrPost_tooMany_unreachable (codes : Nat → Nat) (mr : Nat) :
    (putOrPost codes mr).outcome ≠ .tooManyRetries
    ∧ (0 < mr → (∀ i, i < mr → 500 ≤ codes i) →
        putOrPost codes mr = ⟨.ok (codes (mr - 1)), mr, (List.range mr).map backoffSlot⟩) :=
  ⟨putOrPostLoop_no_tooMany (mr - 0) codes mr 0 0 [] rfl,
   fun hmr hall => putOrPost_all_server_errors codes mr hmr hall⟩

/-- C9 witness: three attempts, all 503: no throw, the 503 response is
returned after three attempts and three backoff sleeps. -/
theorem putOrPost_tooMany_unreachable_witness :
    (putOrPost (fun _ => 503) 3).outcome ≠ .tooManyRetries
    ∧ putOrPost (fun _ => 503) 3 = ⟨.ok 503, 3, (List.range 3).map backoffSlot⟩ :=
  ⟨(putOrPost_tooMany_unreachable (fun _ => 503) 3).1,
   (putOrPost_tooMany_unreachable (fun _ => 503) 3).2 (by decide) (fun i _ => by decide)⟩

/-- A string has positive length exactly when it is not the empty string
(`authToken.size() > 0` in the source). -/
theorem string_length_pos_iff (s : String) : 0 < s.length ↔ s ≠ "" := by
  rw [String.length, List.length_pos]
  constructor
  · intro h he
    exact h (by simp [he])
  · intro h he
    exact h (by cases s; simp_all)

/-- C8: both `JsonRestProxy::putOrPost` and `JsonRestProxy::get` attach the
Cookie bearer-token header, and only that header, exactly when the stored
`authToken` is non-empty; with an empty token no authentication header is
sent at all. -/
theorem cookie_auth_header (st : JsonRestProxyState) :
    (putOrPostHeaders st = [("Cookie", "token=\"" ++ st.authToken ++ "\"")] ↔
      st.authToken ≠ "")
    ∧ (getHeaders st = [("Cookie", "token=\"" ++ st.authToken ++ "\"")] ↔
      st.authToken ≠ "")
    ∧ (st.authToken = "" → putOrPostHeaders st = [] ∧ getHeaders st = []) := by
  by_cases h : st.authToken = ""
  · have hlen : ¬ (0 < st.authToken.length) := by
      rw [string_length_pos_iff]; simp [h]
    simp [putOrPostHeaders, getHeaders, authHeaders, if_neg hlen, h]
  · have hlen : 0 < st.authToken.length := (string_length_pos_iff st.authToken).mpr h
    simp [putOrPostHeaders, getHeaders, authHeaders, if_pos hlen, h]

/-- C8 witness: with a stored token "tok" both request paths carry the
Cookie header; instantiating the empty-token clause at a token-less state
shows nothing is sent. -/
theorem cookie_auth_header_witness :
    (putOrPostHeaders ⟨"http://h", false, "tok", 10⟩
        = [("Cookie", "token=\"" ++ "tok" ++ "\"")]
      ∧ getHeaders ⟨"http://h", false, "tok", 10⟩
        = [("Cookie", "token=\"" ++ "tok" ++ "\"")])
    ∧ (putOrPostHeaders ⟨"http://h", false, "", 10⟩ = []
      ∧ getHeaders ⟨"http://h", false, "", 10⟩ = []) :=
  ⟨⟨(cookie_auth_header ⟨"http://h", false, "tok", 10⟩).1.mpr (by decide),
    (cookie_auth_header ⟨"http://h", false, "tok", 10⟩).2.1.mpr (by decide)⟩,
   (cookie_auth_header ⟨"http://h", false, "", 10⟩).2.2 rfl⟩

/-- C10: a url that begins with "https://" makes the `JsonRestProxy`
constructor set `noSSLChecks`, so every later `perform` on that proxy
turns off both libcurl SSL verification options (host and peer). -/
theorem https_disables_ssl_checks (url : String)
    (h : urlBeginsWith url "https://" = true) :
    (mkJsonRestProxy url).noSSLChecks = true
    ∧ performSSLOpts (mkJsonRestProxy url).noSSLChecks = ⟨false, false⟩ := by
  constructor
  · simp [mkJsonRestProxy, h]
  · simp [mkJsonRestProxy, performSSLOpts, h]

/-- C10 witness: the constructor applied to a concrete https url. -/
theorem https_disables_ssl_checks_witness :
    (mkJsonRestProxy "https://host/api").noSSLChecks = true
    ∧ performSSLOpts (mkJsonRestProxy "https://host/api").noSSLChecks = ⟨false, false⟩ :=
  https_disables_ssl_checks "https://host/api" (by decide)

/-! ## Lemmas about merge and generate -/

/-- Looking up the key just written by `upsertNF` finds the new child. -/
theorem lookupNF_upsert_self : ∀ (acc : NF) (k : String) (n : Node),
    lookupNF (upsertNF acc k n) k = some n
  | .nil, k, n => by simp [upsertNF, lookupNF]
  | .cons k1 v t, k, n => by
      by_cases h : k = k1
      · subst h; simp [upsertNF, lookupNF]
      · simp [upsertNF, lookupNF, h, lookupNF_upsert_self t k n]

/-- `upsertNF` leaves the binding of every other key alone. -/
theorem lookupNF_upsert_other : ∀ (acc : NF) (k : String) (n : Node) (k2 : String),
    k2 ≠ k → lookupNF (upsertNF acc k n) k2 = lookupNF acc k2
  | .nil, k, n, k2, hne => by simp [upsertNF, lookupNF, hne]
  | .cons k1 v t, k, n, k2, hne => by
      by_cases h : k = k1
      · subst h; simp [upsertNF, lookupNF, hne]
      · by_cases h2 : k2 = k1
        · subst h2; simp [upsertNF, lookupNF, h]
        · simp [upsertNF, lookupNF, h, h2, lookupNF_upsert_other t k n k2 hne]

/-- A key that is not a member has no binding. -/
theorem lookupNF_eq_none_of_not_mem : ∀ (acc : NF) (k : String),
    keyMemNF k acc = false → lookupNF acc k = none
  | .nil, k, _ => rfl
  | .cons k1 v t, k, h => by
      by_cases he : k = k1
      · subst he; simp [keyMemNF] at h
      · simp only [keyMemNF, if_neg he] at h
        simp [lookupNF, he, lookupNF_eq_none_of_not_mem t k h]

/-- Upserting a fresh key appends the binding at the end of the schema. -/
theorem upsertNF_eq_append_of_not_mem : ∀ (acc : NF) (k : String) (n : Node),
    keyMemNF k acc = false → upsertNF acc k n = appendNF acc (.cons k n .nil)
  | .nil, k, n, _ => rfl
  | .cons k1 v t, k, n, h => by
      by_cases he : k = k1
      · subst he; simp [keyMemNF] at h
      · simp only [keyMemNF, if_neg he] at h
        simp [upsertNF, appendNF, he, upsertNF_eq_append_of_not_mem t k n h]

/-- Membership in a concatenation of field lists. -/
theorem keyMemNF_append : ∀ (a b : NF) (k : String),
    keyMemNF k (appendNF a b) = (keyMemNF k a || keyMemNF k b)
  | .nil, b, k => rfl
  | .cons k1 v t, b, k => by
      by_cases he : k = k1
      · subst he; simp [appendNF, keyMemNF]
      · simp [appendNF, keyMemNF, he, keyMemNF_append t b k]

/-- Concatenating nothing changes nothing. -/
theorem appendNF_nil : ∀ a : NF, appendNF a .nil = a
  | .nil => rfl
  | .cons k v t => by simp [appendNF, appendNF_nil t]

/-- `appendNF` is associative. -/
theorem appendNF_assoc : ∀ a b c : NF,
    appendNF (appendNF a b) c = appendNF a (appendNF b c)
  | .nil, b, c => rfl
  | .cons k v t, b, c => by simp [appendNF, appendNF_assoc t b c]

/-- Merging a document object whose field names are fresh for the whole
accumulated schema appends one freshly-merged child per field, in document
order. -/
theorem mergeFields_disjoint : ∀ (fs : JF) (acc : NF),
    keyNodupJF fs = true →
    (∀ k, keyMemJF k fs = true → keyMemNF k acc = false) →
    mergeFields acc fs = appendNF acc (mergeNoneFields fs)
  | .nil, acc, _, _ => by simp [mergeFields, mergeNoneFields, appendNF_nil]
  | .cons k v rest, acc, hnd, hdisj => by
      simp only [keyNodupJF, Bool.and_eq_true, Bool.not_eq_true] at hnd
      obtain ⟨hkrest, hndrest⟩ := hnd
      have hkacc : keyMemNF k acc = false := hdisj k (by simp [keyMemJF])
      have hlook : lookupNF acc k = none := lookupNF_eq_none_of_not_mem acc k hkacc
      have hup : upsertNF acc k (mergeVal none v) = appendNF acc (.cons k (mergeVal none v) .nil) :=
        upsertNF_eq_append_of_not_mem acc k _ hkacc
      have hdisj2 : ∀ k2, keyMemJF k2 rest = true →
          keyMemNF k2 (appendNF acc (.cons k (mergeVal none v) .nil)) = false := by
        intro k2 hk2
        rw [keyMemNF_append]
        have hne : k2 ≠ k := by
          intro he; subst he; simp [hk2] at hkrest
        have h1 : keyMemNF k2 acc = false := hdisj k2 (by simp [keyMemJF, hne, hk2])
        simp [h1, keyMemNF, hne]
      calc mergeFields acc (.cons k v rest)
          = mergeFields (appendNF acc (.cons k (mergeVal none v) .nil)) rest := by
            rw [mergeFields, hlook, hup]
        _ = appendNF (appendNF acc (.cons k (mergeVal none v) .nil)) (mergeNoneFields rest) :=
            mergeFields_disjoint rest _ hndrest hdisj2
        _ = appendNF acc (mergeNoneFields (.cons k v rest)) := by
            rw [appendNF_assoc]; rfl

/-- Merging a scalar stores exactly its (type, value) pair, and generating
it emits the same scalar back, whatever was at the position before. -/
theorem genNode_mergeVal_scalar : ∀ (n : Option Node) (v : J),
    isScalarJ v = true → genNode (mergeVal n v) = v := by
  intro n v hv
  cases v with
  | null => rfl
  | b x => rfl
  | i x => rfl
  | u x => rfl
  | r x => rfl
  | s x => rfl
  | a xs => simp [isScalarJ] at hv
  | o fs => simp [isScalarJ] at hv

/-- Generating the freshly-merged children of an all-scalar field list
reproduces the field list exactly. -/
theorem genFields_mergeNone_scalar : ∀ fs : JF,
    allScalarJF fs = true → genFields (mergeNoneFields fs) = fs
  | .nil, _ => rfl
  | .cons k v t, h => by
      simp only [allScalarJF, Bool.and_eq_true] at h
      simp [mergeNoneFields, genFields, genNode_mergeVal_scalar none v h.1,
        genFields_mergeNone_scalar t h.2]

/-- C4: single-record fidelity.  Recording one document whose fields are
all scalars (any mix of boolean, integer, large negative integer, floating
point and text leaves) into an empty model and generating reproduces the
document exactly: every field present, every leaf with the same type tag
and value, in the same order. -/
theorem single_record_leaf_fidelity (fs : JF)
    (hsc : allScalarJF fs = true) (hnd : keyNodupJF fs = true) :
    generateModel (record none (.o fs)) = .o fs := by
  have hdisj : ∀ k, keyMemJF k fs = true → keyMemNF k NF.nil = false := by
    intro k _; rfl
  have hmf : mergeFields NF.nil fs = mergeNoneFields fs := by
    rw [mergeFields_disjoint fs NF.nil hnd hdisj]; rfl
  show genNode (mergeVal none (.o fs)) = .o fs
  rw [mergeVal]
  show J.o (genFields (mergeFields (startFields none) fs)) = .o fs
  show J.o (genFields (mergeFields NF.nil fs)) = .o fs
  rw [hmf, genFields_mergeNone_scalar fs hsc]

/-- C4 witness: the five-leaf document of the `recordLeafs` test case
(boolean, int, large negative integer, float 123.5 and a text leaf)
round-trips through one record and one generate. -/
theorem single_record_leaf_fidelity_witness :
    generateModel (record none (.o
      (.cons "bool" (.b true)
      (.cons "int" (.i 123)
      (.cons "ull" (.i (-4123576534534))
      (.cons "float" (.r (247 / 2))
      (.cons "str" (.s "This is a string and it is awesome") .nil)))))))
    = .o
      (.cons "bool" (.b true)
      (.cons "int" (.i 123)
      (.cons "ull" (.i (-4123576534534))
      (.cons "float" (.r (247 / 2))
      (.cons "str" (.s "This is a string and it is awesome") .nil))))) :=
  single_record_leaf_fidelity _ (by decide) (by decide)

/-- A field name that is not a member of an object has no binding. -/
theorem lookupJF_eq_none_of_not_mem : ∀ (fs : JF) (k : String),
    keyMemJF k fs = false → lookupJF fs k = none
  | .nil, k, _ => rfl
  | .cons k1 v t, k, h => by
      by_cases he : k = k1
      · subst he; simp [keyMemJF] at h
      · simp only [keyMemJF, if_neg he] at h
        simp [lookupJF, he, lookupJF_eq_none_of_not_mem t k h]

/-- Well-formedness of an object gives distinct field names. -/
theorem keyNodup_of_jwfF : ∀ fs : JF, jwfF fs = true → keyNodupJF fs = true
  | .nil, _ => rfl
  | .cons k v t, h => by
      simp only [jwfF, Bool.and_eq_true] at h
      simp [keyNodupJF, h.1.1, keyNodup_of_jwfF t h.2]

/-- Every field value of a well-formed object is well-formed. -/
theorem jwf_of_lookupJF : ∀ (fs : JF) (k : String) (v : J),
    jwfF fs = true → lookupJF fs k = some v → jwf v = true
  | .nil, k, v, _, h => by simp [lookupJF] at h
  | .cons k1 v1 t, k, v, hwf, h => by
      simp only [jwfF, Bool.and_eq_true] at hwf
      by_cases he : k = k1
      · subst he
        simp only [lookupJF, if_pos, Option.some.injEq] at h
        subst h; exact hwf.1.2
      · simp only [lookupJF, if_neg he] at h
        exact jwf_of_lookupJF t k v hwf.2 h

/-- What `mergeFields` leaves under each name: fields mentioned by the
incoming object hold the incoming value merged into the prior child (if
any); all other names keep their previous binding. -/
theorem lookupNF_mergeFields : ∀ (fs : JF) (acc : NF) (key : String),
    keyNodupJF fs = true →
    lookupNF (mergeFields acc fs) key =
      (match lookupJF fs key with
       | some v => some (mergeVal (lookupNF acc key) v)
       | none => lookupNF acc key)
  | .nil, acc, key, _ => by simp [mergeFields, lookupJF]
  | .cons k v rest, acc, key, hnd => by
      simp only [keyNodupJF, Bool.and_eq_true] at hnd
      obtain ⟨hkrest, hndrest⟩ := hnd
      have hkrest2 : keyMemJF k rest = false := by simpa using hkrest
      rw [mergeFields]
      rw [lookupNF_mergeFields rest _ key hndrest]
      by_cases he : key = k
      · subst he
        have hrest : lookupJF rest key = none := lookupJF_eq_none_of_not_mem rest key hkrest2
        simp [lookupJF, hrest, lookupNF_upsert_self]
      · simp [lookupJF, he, lookupNF_upsert_other _ _ _ _ he]

/-- Record then look up along an object-field path: if the document holds
value `v` at field path `p`, then after merging the document the model
holds, at that same path, `v` merged into whatever child (possibly none)
sat there before. -/
theorem nodeAtPath_mergeVal : ∀ (p : List String) (j v : J) (n : Option Node),
    jwf j = true → lookupFieldPath j p = some v →
    ∃ c : Option Node, nodeAtPath (mergeVal n j) p = some (mergeVal c v)
  | [], j, v, n, _, h => by
      simp only [lookupFieldPath, Option.some.injEq] at h
      subst h
      exact ⟨n, by simp [nodeAtPath]⟩
  | k :: p, j, v, n, hwf, h => by
      cases j with
      | o fs =>
          simp only [lookupFieldPath] at h
          cases hv2 : lookupJF fs k with
          | none => rw [hv2] at h; cases h
          | some v2 =>
              rw [hv2] at h
              have hwfF : jwfF fs = true := by simpa [jwf] using hwf
              have hnd : keyNodupJF fs = true := keyNodup_of_jwfF fs hwfF
              have hwv2 : jwf v2 = true := jwf_of_lookupJF fs k v2 hwfF hv2
              show ∃ c, nodeAtPath (.obj (mergeFields (startFields n) fs)) (k :: p)
                = some (mergeVal c v)
              rw [nodeAtPath, lookupNF_mergeFields fs (startFields n) k hnd, hv2]
              exact nodeAtPath_mergeVal p v2 v (lookupNF (startFields n) k) hwv2 h
      | null => simp [lookupFieldPath] at h
      | b x => simp [lookupFieldPath] at h
      | i x => simp [lookupFieldPath] at h
      | u x => simp [lookupFieldPath] at h
      | r x => simp [lookupFieldPath] at h
      | s x => simp [lookupFieldPath] at h
      | a xs => simp [lookupFieldPath] at h

/-- Generation maps the bindings of the schema pointwise. -/
theorem lookupJF_genFields : ∀ (fs : NF) (k : String),
    lookupJF (genFields fs) k = (lookupNF fs k).map genNode
  | .nil, k => rfl
  | .cons k1 v t, k => by
      by_cases he : k = k1
      · subst he; simp [genFields, lookupJF, lookupNF]
      · simp [genFields, lookupJF, lookupNF, he, lookupJF_genFields t k]

/-- Whatever node sits at a field path of the model, the generated
document holds the generation of that node at the same path. -/
theorem lookupFieldPath_genNode : ∀ (p : List String) (n c : Node),
    nodeAtPath n p = some c →
    lookupFieldPath (genNode n) p = some (genNode c)
  | [], n, c, h => by
      simp only [nodeAtPath, Option.some.injEq] at h
      subst h; rfl
  | k :: p, n, c, h => by
      cases n with
      | obj fs =>
          simp only [nodeAtPath] at h
          cases hch : lookupNF fs k with
          | none => rw [hch] at h; cases h
          | some ch =>
              rw [hch] at h
              show lookupFieldPath (.o (genFields fs)) (k :: p) = some (genNode c)
              rw [lookupFieldPath, lookupJF_genFields fs k, hch]
              exact lookupFieldPath_genNode p ch c h
      | leaf v => cases v <;> simp [nodeAtPath] at h
      | arr0 => simp [nodeAtPath] at h
      | arr1 c2 => simp [nodeAtPath] at h

/-- Merging at least one element into an array position always leaves an
element shape. -/
theorem mergeElems_some : ∀ (xs : JL) (c : Node),
    ∃ ch : Node, mergeElems (some c) xs = some ch
  | .nil, c => ⟨c, rfl⟩
  | .cons x t, c => by
      rw [mergeElems]
      exact mergeElems_some t (mergeVal (some c) x)

/-- C3 (amended): array collapse along object-field paths.  Recording a
document that holds an array of more than one element at a field path `p`
(a position not itself nested inside another array) makes the model hold
an array node with a single merged element shape at `p`, and `generate()`
emits at `p` an array of exactly one element: the generation of that
merged shape.  At positions nested inside arrays the collapse can instead
be overwritten by a sibling element of a different kind (last kind wins,
spec section 4.1), and then no array is emitted there at all — see the
counterexample. -/
theorem array_collapse_field_path (m : Option Node) (doc : J) (p : List String) (xs : JL)
    (hwf : jwf doc = true) (hpath : lookupFieldPath doc p = some (.a xs))
    (hlen : 1 < lenL xs) :
    ∃ ch : Node,
      nodeAtPath (mergeVal m doc) p = some (.arr1 ch)
      ∧ lookupFieldPath (generateModel (record m doc)) p
          = some (.a (.cons (genNode ch) .nil)) := by
  obtain ⟨c, hc⟩ := nodeAtPath_mergeVal p doc (.a xs) m hwf hpath
  cases xs with
  | nil => simp [lenL] at hlen
  | cons x t =>
      obtain ⟨ch, hch⟩ := mergeElems_some t (mergeVal (startElem c) x)
      have hnode : mergeVal c (.a (.cons x t)) = .arr1 ch := by
        rw [mergeVal, mergeElems, hch]
        rfl
      rw [hnode] at hc
      refine ⟨ch, hc, ?_⟩
      show lookupFieldPath (genNode (mergeVal m doc)) p = some (.a (.cons (genNode ch) .nil))
      have := lookupFieldPath_genNode p (mergeVal m doc) (.arr1 ch) hc
      rw [this]
      rfl

/-- C3 witness: the four-integer array of the `recordArray` test case
collapses to a single-element array under the field "ints". -/
theorem array_collapse_field_path_witness :
    ∃ ch : Node,
      nodeAtPath (mergeVal none (.o (.cons "ints" (.a (.cons (.i 123) (.cons (.i 12345)
          (.cons (.i 23) (.cons (.i 1512) .nil))))) .nil))) ["ints"] = some (.arr1 ch)
      ∧ lookupFieldPath (generateModel (record none (.o (.cons "ints" (.a (.cons (.i 123)
          (.cons (.i 12345) (.cons (.i 23) (.cons (.i 1512) .nil))))) .nil)))) ["ints"]
          = some (.a (.cons (genNode ch) .nil)) :=
  array_collapse_field_path none _ ["ints"]
    (.cons (.i 123) (.cons (.i 12345) (.cons (.i 23) (.cons (.i 1512) .nil))))
    (by decide) (by decide) (by decide)

/-- C3 counterexample: the claim fails for an array position nested inside
another array.  Recording the single document with value [[1, 2], 5] under
field "a" puts the two-element array [1, 2] at position a[0]; merging the
sibling element 5 then overwrites the shared element shape (last kind
wins), so generate emits {"a": [5]}: at position a[0] sits the scalar 5,
not a one-element array. -/
theorem array_collapse_counterexample :
    lookupStep (.o (.cons "a" (.a (.cons (.a (.cons (.i 1) (.cons (.i 2) .nil)))
        (.cons (.i 5) .nil))) .nil)) [.fld "a", .idx 0]
      = some (.a (.cons (.i 1) (.cons (.i 2) .nil)))
    ∧ 1 < lenL (.cons (.i 1) (.cons (.i 2) .nil))
    ∧ lookupStep (generateModel (record none (.o (.cons "a" (.a (.cons (.a (.cons (.i 1)
        (.cons (.i 2) .nil))) (.cons (.i 5) .nil))) .nil)))) [.fld "a", .idx 0]
      = some (.i 5)
    ∧ isScalarJ (.i 5) = true := by
  decide

/-! ## The codec round-trip and reflexivity of check -/

/-- Scalars decode back to themselves. -/
theorem toScalar_toJ : ∀ v : Scalar, toScalar (Scalar.toJ v) = some v
  | .null => rfl
  | .b _ => rfl
  | .i _ => rfl
  | .u _ => rfl
  | .r _ => rfl
  | .s _ => rfl

/-- Every serialized node is a one-field object. -/
theorem encodeNode_isObj : ∀ n : Node, ∃ fs : JF, encodeNode n = .o fs
  | .leaf _ => ⟨_, rfl⟩
  | .obj _ => ⟨_, rfl⟩
  | .arr0 => ⟨_, rfl⟩
  | .arr1 _ => ⟨_, rfl⟩

mutual

/-- The codec loses nothing: decoding a dumped node reconstructs it. -/
theorem decodeNode_encodeNode : ∀ n : Node, decodeNode (encodeNode n) = some n
  | .leaf v => by cases v <;> rfl
  | .obj fs => by
      rw [encodeNode, decodeNode]
      show (decodeFields (encodeFields fs)).map Node.obj = some (Node.obj fs)
      rw [decodeFields_encodeFields fs]
      rfl
  | .arr0 => rfl
  | .arr1 c => by
      obtain ⟨gs, hgs⟩ := encodeNode_isObj c
      rw [encodeNode, hgs, decodeNode]
      show (decodeNode (J.o gs)).map Node.arr1 = some (Node.arr1 c)
      rw [← hgs, decodeNode_encodeNode c]
      rfl

/-- Field lists round-trip through the codec. -/
theorem decodeFields_encodeFields : ∀ fs : NF, decodeFields (encodeFields fs) = some fs
  | .nil => rfl
  | .cons k v t => by
      rw [encodeFields, decodeFields]
      rw [decodeNode_encodeNode v, decodeFields_encodeFields t]

end

/-- Generation preserves the field-name set of an object node. -/
theorem keyMemJF_genFields : ∀ (fs : NF) (k : String),
    keyMemJF k (genFields fs) = keyMemNF k fs
  | .nil, _ => rfl
  | .cons k1 v t, k => by
      by_cases he : k = k1
      · subst he; simp [genFields, keyMemJF, keyMemNF]
      · simp [genFields, keyMemJF, keyMemNF, he, keyMemJF_genFields t k]

mutual

/-- A well-formed model generates a well-formed document. -/
theorem jwf_genNode : ∀ n : Node, nwf n = true → jwf (genNode n) = true
  | .leaf v, _ => by cases v <;> rfl
  | .obj fs, h => by
      rw [genNode]
      show jwfF (genFields fs) = true
      exact jwfF_genFields fs (by simpa [nwf] using h)
  | .arr0, _ => rfl
  | .arr1 c, h => by
      rw [genNode]
      show jwfL (.cons (genNode c) .nil) = true
      simp [jwfL, jwf_genNode c (by simpa [nwf] using h)]

/-- A well-formed schema generates a well-formed field list. -/
theorem jwfF_genFields : ∀ fs : NF, nwfFs fs = true → jwfF (genFields fs) = true
  | .nil, _ => rfl
  | .cons k v t, h => by
      simp only [nwfFs, Bool.and_eq_true] at h
      have hk : keyMemNF k t = false := by simpa using h.1.1
      rw [genFields]
      show jwfF (.cons k (genNode v) (genFields t)) = true
      simp [jwfF, keyMemJF_genFields, hk, jwf_genNode v h.1.2, jwfF_genFields t h.2]

end

/-- A binding exists exactly for member names. -/
theorem lookupJF_isSome_iff_mem : ∀ (fs : JF) (k : String),
    (lookupJF fs k).isSome = keyMemJF k fs
  | .nil, _ => rfl
  | .cons k1 v t, k => by
      by_cases he : k = k1
      · subst he; simp [lookupJF, keyMemJF]
      · simp [lookupJF, keyMemJF, he, lookupJF_isSome_iff_mem t k]

/-- Every array is a subset of itself, elementwise. -/
theorem subsetL_refl (xs : JL) : subsetL xs xs = true :=
  (subsetL_iff xs xs).mpr (fun _ hv => hv)

/-- The dst-side member loop of `check` passes whenever every dst name is
also a src name. -/
theorem checkFieldsDst_of_mem_sub : ∀ (t gs : JF),
    (∀ k, keyMemJF k t = true → keyMemJF k gs = true) → checkFieldsDst t gs = true
  | .nil, _, _ => rfl
  | .cons k v t2, gs, h => by
      rw [checkFieldsDst]
      have hk : keyMemJF k gs = true := h k (by simp [keyMemJF])
      have hsome : (lookupJF gs k).isSome = true := by
        rw [lookupJF_isSome_iff_mem]; exact hk
      have hrest : checkFieldsDst t2 gs = true := by
        refine checkFieldsDst_of_mem_sub t2 gs ?_
        intro k2 hk2
        refine h k2 ?_
        by_cases h2 : k2 = k <;> simp [keyMemJF, h2, hk2]
      simp [hsome, hrest]

mutual

/-- The `check` of the harness accepts any well-formed document against itself. -/
theorem checkOk_refl : ∀ j : J, jwf j = true → checkOk j j = true
  | .null, _ => by simp [checkOk]
  | .b x, _ => by simp [checkOk]
  | .i x, _ => by simp [checkOk]
  | .u x, _ => by simp [checkOk]
  | .r x, _ => by simp [checkOk]
  | .s x, _ => by simp [checkOk]
  | .a xs, _ => by
      rw [checkOk]
      simp [subsetL_refl]
  | .o fs, h => by
      rw [checkOk]
      have hwfF : jwfF fs = true := by simpa [jwf] using h
      simp [checkFieldsSrc_sub fs fs hwfF (fun _ _ hv => hv),
        checkFieldsDst_of_mem_sub fs fs (fun _ hk => hk)]

/-- The src-side loop of `check` passes when every binding of `t` is also
the (first) binding in `gs` and `t` is well-formed. -/
theorem checkFieldsSrc_sub : ∀ (t gs : JF), jwfF t = true →
    (∀ k v, lookupJF t k = some v → lookupJF gs k = some v) →
    checkFieldsSrc t gs = true
  | .nil, _, _, _ => rfl
  | .cons k v t2, gs, hwf, hsub => by
      simp only [jwfF, Bool.and_eq_true] at hwf
      have hkt2 : keyMemJF k t2 = false := by simpa using hwf.1.1
      have hgs : lookupJF gs k = some v := hsub k v (by simp [lookupJF])
      rw [checkFieldsSrc, hgs]
      have h1 : checkOk v v = true := checkOk_refl v hwf.1.2
      have h2 : checkFieldsSrc t2 gs = true := by
        refine checkFieldsSrc_sub t2 gs hwf.2 ?_
        intro k2 v2 hv2
        refine hsub k2 v2 ?_
        have hne : k2 ≠ k := by
          intro he; subst he
          rw [lookupJF_eq_none_of_not_mem t2 k2 hkt2] at hv2; cases hv2
        simp [lookupJF, hne, hv2]
      simp [h1, h2]

end

/-- Keys after an upsert: the written key joins the schema, nothing else
changes. -/
theorem keyMemNF_upsert : ∀ (acc : NF) (k : String) (nd : Node) (k2 : String),
    keyMemNF k2 (upsertNF acc k nd) = (keyMemNF k2 acc || k2 = k)
  | .nil, k, nd, k2 => by
      by_cases he : k2 = k <;> simp [upsertNF, keyMemNF, he]
  | .cons k1 v t, k, nd, k2 => by
      by_cases h : k = k1
      · subst h
        by_cases he : k2 = k <;> simp [upsertNF, keyMemNF, he]
      · by_cases he : k2 = k1 <;>
          simp [upsertNF, keyMemNF, h, he, keyMemNF_upsert t k nd k2]

/-- Upserting a well-formed child into a well-formed schema keeps it
well-formed. -/
theorem nwfFs_upsert : ∀ (acc : NF) (k : String) (nd : Node),
    nwfFs acc = true → nwf nd = true → nwfFs (upsertNF acc k nd) = true
  | .nil, k, nd, _, hnd => by simp [upsertNF, nwfFs, keyMemNF, hnd]
  | .cons k1 v t, k, nd, hacc, hnd => by
      simp only [nwfFs, Bool.and_eq_true] at hacc
      have hk1t : keyMemNF k1 t = false := by simpa using hacc.1.1
      by_cases h : k = k1
      · subst h
        simp [upsertNF, nwfFs, hk1t, hnd, hacc.2]
      · have hne : ¬ k1 = k := fun he => h he.symm
        have hmem : keyMemNF k1 (upsertNF t k nd) = false := by
          rw [keyMemNF_upsert]
          simp [hk1t, hne]
        simp [upsertNF, h, nwfFs, hmem, hacc.1.2, nwfFs_upsert t k nd hacc.2 hnd]

/-- The child found under a name in a well-formed schema is well-formed. -/
theorem nwf_of_lookupNF : ∀ (acc : NF) (k : String) (c : Node),
    nwfFs acc = true → lookupNF acc k = some c → nwf c = true
  | .nil, k, c, _, h => by simp [lookupNF] at h
  | .cons k1 v t, k, c, hacc, h => by
      simp only [nwfFs, Bool.and_eq_true] at hacc
      by_cases he : k = k1
      · subst he
        simp only [lookupNF, if_pos, Option.some.injEq] at h
        subst h; exact hacc.1.2
      · simp only [lookupNF, if_neg he] at h
        exact nwf_of_lookupNF t k c hacc.2 h

/-- The schema an incoming object merges into is well-formed whenever the
prior node is. -/
theorem nwfFs_startFields : ∀ n : Option Node,
    nwfModel n = true → nwfFs (startFields n) = true := by
  intro n h
  match n with
  | none => rfl
  | some (.leaf _) => rfl
  | some (.obj fs) => simpa [nwfModel, nwf, startFields] using h
  | some .arr0 => rfl
  | some (.arr1 _) => rfl

/-- The element shape an incoming array merges into is well-formed
whenever the prior node is. -/
theorem nwfModel_startElem : ∀ n : Option Node,
    nwfModel n = true → nwfModel (startElem n) = true := by
  intro n h
  match n with
  | none => rfl
  | some (.leaf _) => rfl
  | some (.obj _) => rfl
  | some .arr0 => rfl
  | some (.arr1 c) => simpa [nwfModel, nwf, startElem] using h

mutual

/-- Merging any document into a well-formed position yields a well-formed
node: the model invariant (distinct field names everywhere) is preserved
by `record`. -/
theorem nwf_mergeVal : ∀ (j : J) (n : Option Node),
    nwfModel n = true → nwf (mergeVal n j) = true
  | .null, _, _ => rfl
  | .b _, _, _ => rfl
  | .i _, _, _ => rfl
  | .u _, _, _ => rfl
  | .r _, _, _ => rfl
  | .s _, _, _ => rfl
  | .a xs, n, h => by
      rw [mergeVal]
      have := nwfModel_mergeElems xs (startElem n) (nwfModel_startElem n h)
      match hm : mergeElems (startElem n) xs with
      | none => rfl
      | some ch =>
          rw [hm] at this
          simpa [arrOf, nwf, nwfModel] using this
  | .o fs, n, h => by
      rw [mergeVal]
      show nwfFs (mergeFields (startFields n) fs) = true
      exact nwfFs_mergeFields fs (startFields n) (nwfFs_startFields n h)

/-- Folding array elements into the shared element shape preserves
well-formedness. -/
theorem nwfModel_mergeElems : ∀ (xs : JL) (c : Option Node),
    nwfModel c = true → nwfModel (mergeElems c xs) = true
  | .nil, c, h => h
  | .cons x t, c, h => by
      rw [mergeElems]
      exact nwfModel_mergeElems t (some (mergeVal c x))
        (by simpa [nwfModel] using nwf_mergeVal x c h)

/-- Merging incoming fields into a well-formed schema preserves
well-formedness. -/
theorem nwfFs_mergeFields : ∀ (fs : JF) (acc : NF),
    nwfFs acc = true → nwfFs (mergeFields acc fs) = true
  | .nil, acc, h => h
  | .cons k v rest, acc, h => by
      rw [mergeFields]
      refine nwfFs_mergeFields rest _ (nwfFs_upsert acc k _ h ?_)
      refine nwf_mergeVal v (lookupNF acc k) ?_
      match hl : lookupNF acc k with
      | none => rfl
      | some c => simpa [nwfModel] using nwf_of_lookupNF acc k c h hl

end

/-- Every model reachable by recording documents is well-formed: `record`
preserves the invariant from the empty model on. -/
theorem record_preserves_wf (m : Option Node) (doc : J) (h : nwfModel m = true) :
    nwfModel (record m doc) = true := by
  show nwf (mergeVal m doc) = true
  exact nwf_mergeVal doc m h

/-- C2: dump/load fixpoint.  For every well-formed model state (and every
reachable state is well-formed, by `record_preserves_wf`), loading the
serialized form produced by dump succeeds and yields a model whose
`generate()` output passes the order-insensitive comparison of the harness
against the output generated before the dump. -/
theorem dump_load_fixpoint (m : Option Node) (hwf : nwfModel m = true) :
    ∃ m2 : Option Node, loadModel (dumpModel m) = .ok m2
      ∧ checkOk (generateModel m2) (generateModel m) = true := by
  cases m with
  | none => exact ⟨none, rfl, by decide⟩
  | some n =>
      refine ⟨some n, ?_, ?_⟩
      · obtain ⟨fs, hfs⟩ := encodeNode_isObj n
        show loadModel (encodeNode n) = .ok (some n)
        rw [hfs, loadModel, ← hfs, decodeNode_encodeNode n]
        all_goals simp
      · exact checkOk_refl (genNode n) (jwf_genNode n (by simpa [nwfModel] using hwf))

/-- C2 witness: a concrete one-field model round-trips through dump and
load with order-insensitively equal generate output. -/
theorem dump_load_fixpoint_witness :
    ∃ m2 : Option Node,
      loadModel (dumpModel (some (.obj (.cons "x" (.leaf (.i 3)) .nil)))) = .ok m2
      ∧ checkOk (generateModel m2)
          (generateModel (some (.obj (.cons "x" (.leaf (.i 3)) .nil)))) = true :=
  dump_load_fixpoint (some (.obj (.cons "x" (.leaf (.i 3)) .nil))) (by decide)

/-! ## Determinism and order-insensitivity of generate (C5), load atomicity (C7) -/

mutual

/-- The order-insensitive comparison is reflexive. -/
theorem jequiv_refl : ∀ j : J, JEquiv j j
  | .null => .null
  | .b x => .b x
  | .i x => .i x
  | .u x => .u x
  | .r x => .r x
  | .s x => .s x
  | .a xs => .a (jlequiv_refl xs)
  | .o fs => .o (jfequiv_refl fs)

/-- Reflexivity for array element lists. -/
theorem jlequiv_refl : ∀ xs : JL, JLEquiv xs xs
  | .nil => .nil
  | .cons h t => .cons (jequiv_refl h) (jlequiv_refl t)

/-- Reflexivity for object field lists. -/
theorem jfequiv_refl : ∀ fs : JF, JFEquiv fs fs
  | .nil => .nil
  | .cons k v t => .cons k (jequiv_refl v) (jfequiv_refl t)

end

/-- Generation is a congruence for field-insertion order: models that
differ only in the order in which distinct object fields were inserted
generate order-insensitively equal documents.  Proved by mutual induction
on the derivation, through the raw recursor of the mutual relation. -/
theorem genNode_equiv {n1 n2 : Node} (h : NodeEquiv n1 n2) :
    JEquiv (genNode n1) (genNode n2) :=
  @NodeEquiv.rec
    (fun m1 m2 _ => JEquiv (genNode m1) (genNode m2))
    (fun f g _ => JFEquiv (genFields f) (genFields g))
    (fun v => jequiv_refl (genNode (.leaf v)))
    (JEquiv.a .nil)
    (fun _ ih => .a (.cons ih .nil))
    (fun _ ih => .o ih)
    .nil
    (fun k _ _ ihv iht => .cons k ihv iht)
    (fun hk => .swap hk)
    (fun _ _ ih1 ih2 => .trans ih1 ih2)
    n1 n2 h

/-- C5: generation is deterministic.  `generate()` is a pure function of
the model — two calls with no intervening `record` are literally the same
value, with no random sampling — and it has no hidden dependence on the
insertion order of object fields: models equal up to the order of distinct
field insertions generate documents equal under the order-insensitive
comparison. -/
theorem generate_deterministic :
    (∀ m : Option Node, generateModel m = generateModel m)
    ∧ ∀ n1 n2 : Node, NodeEquiv n1 n2 → JEquiv (genNode n1) (genNode n2) :=
  ⟨fun _ => rfl, fun _ _ h => genNode_equiv h⟩

/-- C5 witness: a two-field object node and its field-swapped twin
generate order-insensitively equal documents. -/
theorem generate_deterministic_witness :
    generateModel (some (.obj (.cons "a" (.leaf (.i 1)) (.cons "b" (.leaf .null) .nil))))
      = generateModel (some (.obj (.cons "a" (.leaf (.i 1)) (.cons "b" (.leaf .null) .nil))))
    ∧ JEquiv
        (genNode (.obj (.cons "a" (.leaf (.i 1)) (.cons "b" (.leaf .null) .nil))))
        (genNode (.obj (.cons "b" (.leaf .null) (.cons "a" (.leaf (.i 1)) .nil)))) :=
  ⟨generate_deterministic.1 _,
   generate_deterministic.2 _ _ (.obj (.swap (by decide)))⟩

/-- C7: load is atomic.  When the serialized input is corrupt (anything
the codec cannot decode) `load` reports a decode error and the model —
hence also its subsequent `generate()` output — is exactly what it was
before; when decoding succeeds the loaded model replaces the old one
wholesale. -/
theorem load_atomic (m : Option Node) (src : J) :
    (∀ e : String, loadModel src = .error e →
      loadState m src = (m, true)
      ∧ generateModel (loadState m src).1 = generateModel m)
    ∧ (∀ m2 : Option Node, loadModel src = .ok m2 → loadState m src = (m2, false)) := by
  constructor
  · intro e he
    constructor
    · simp [loadState, he]
    · simp [loadState, he]
  · intro m2 h2
    simp [loadState, h2]

/-- C7 witness: a corrupt serialized model (a "leaf" entry holding an
object) is rejected and a concrete one-field model survives unchanged. -/
theorem load_atomic_witness :
    loadState (some (.obj (.cons "x" (.leaf (.i 3)) .nil))) (.o (.cons "leaf" (.o .nil) .nil))
      = (some (.obj (.cons "x" (.leaf (.i 3)) .nil)), true)
    ∧ generateModel (loadState (some (.obj (.cons "x" (.leaf (.i 3)) .nil)))
        (.o (.cons "leaf" (.o .nil) .nil))).1
      = generateModel (some (.obj (.cons "x" (.leaf (.i 3)) .nil))) :=
  (load_atomic (some (.obj (.cons "x" (.leaf (.i 3)) .nil)))
    (.o (.cons "leaf" (.o .nil) .nil))).1 "cannot decode serialized model" rfl
